import Mathlib

/-!
Verification of the server-side table-query engine behind the meteorite
dashboard's `/data` endpoint.

The visible repository code (`src/static/scripts.js`, the HTML template)
provides only the client-side configuration of the protocol: the default
page length, the default sort order, and the two column mappings of the two
table views.  Those constants are embedded below directly from the source.
The query engine itself (Request Parser, Filter Engine, Sort Engine, Pager,
Response Formatter) is not part of the repository's files; its behaviour is
modelled from the specification's component contracts and is marked as such
on each definition.
-/

namespace MeteoriteQuery

open List

/-- A field value of a record.  The spec's data model: "Fields are typed:
string, number, or formatted-string-derived-from-number"; `null` stands for
a missing/unparseable value. -/
inductive FieldValue where
  | str (s : String)
  | num (n : Int)
  | null
  deriving DecidableEq, Repr

/-- A record: an association list from field names to typed values
("one observed entity with a fixed, ordered set of named fields"). -/
def Record := List (String × FieldValue)

instance : DecidableEq Record := by
  unfold Record
  infer_instance

/-- Field lookup in a record. -/
def getField (r : Record) (f : String) : Option FieldValue :=
  (r.find? (fun p => p.1 == f)).map (·.2)

/-- Engine configuration: the Column Mapping, the set of searchable fields,
the default page length and the default order.  The spec requires these to
be "configuration, not hard-coded logic". -/
structure Config where
  columnMapping : List String
  searchableFields : List String
  defaultLength : Nat
  defaultOrderRaw : List (Int × Bool)
  deriving DecidableEq, Repr

/-- From `src/static/scripts.js`, `CONFIG.dataTable.pageLength` (line 9). -/
def configPageLength : Nat := 25

/-- From `src/static/scripts.js`, `CONFIG.dataTable.order = [[3, 'desc']]`
(line 11); `true` means ascending. -/
def configDefaultOrder : List (Int × Bool) := [(3, false)]

/-- From `src/static/scripts.js` lines 40-47: the compact view's column
mapping (`columns: [{data:'name'}, {data:'mass'}, ...]`). -/
def compactColumns : List String :=
  ["name", "mass", "year", "recclass", "reclat", "reclong"]

/-- From `src/static/scripts.js` lines 214-223: the extended view's column
mapping. -/
def extendedColumns : List String :=
  ["name", "recclass", "recclass_clean", "mass_formatted", "year_formatted",
   "reclat", "reclong", "fall"]

/-- Modelled from the spec: the searchable fields of the compact view — the
backend implementing `/data` is absent, and §4.2 says only "text-like
fields — name, classification labels, discovery-mode flag" participate in
free-text search, while "numeric fields (mass, year, coordinates) are
excluded". -/
def compactSearchable : List String := ["name", "recclass"]

/-- Modelled from the spec: the searchable fields of the extended view
(§4.2; the `/data` backend is absent).  Text-like fields only: the name,
the two classification labels and the find/fall discovery-mode flag. -/
def extendedSearchable : List String :=
  ["name", "recclass", "recclass_clean", "fall"]

/-- The compact view's configuration, assembled from `CONFIG.dataTable` in
`src/static/scripts.js` and the spec's searchable-field policy. -/
def compactConfig : Config :=
  { columnMapping := compactColumns
    searchableFields := compactSearchable
    defaultLength := configPageLength
    defaultOrderRaw := configDefaultOrder }

/-- The extended view's configuration. -/
def extendedConfig : Config :=
  { columnMapping := extendedColumns
    searchableFields := extendedSearchable
    defaultLength := configPageLength
    defaultOrderRaw := configDefaultOrder }

/-! ### Filter Engine -/

/-- Modelled from the spec (§4.2, the `/data` backend is absent): splitting
the search string on whitespace; `cur` accumulates the current token in
reverse. -/
def tokensAux (cur : List Char) : List Char → List (List Char)
  | [] => if cur.isEmpty then [] else [cur.reverse]
  | c :: cs =>
    if c.isWhitespace then
      if cur.isEmpty then tokensAux [] cs else cur.reverse :: tokensAux [] cs
    else
      tokensAux (c :: cur) cs

/-- Modelled from the spec: "The search string is split on whitespace into
tokens (empty string yields zero tokens)". -/
def tokensOf (s : String) : List (List Char) :=
  tokensAux [] s.toList

/-- Does `hay` start with `needle`? -/
def startsSeq : List Char → List Char → Bool
  | [], _ => true
  | _ :: _, [] => false
  | a :: as, b :: bs => a == b && startsSeq as bs

/-- Does `needle` occur as a contiguous subsequence of `hay`? -/
def containsSeq (needle : List Char) : List Char → Bool
  | [] => startsSeq needle []
  | c :: cs => startsSeq needle (c :: cs) || containsSeq needle cs

/-- Case-insensitive substring containment on strings, modelled from the
spec: "matching is case-insensitive substring containment". -/
def matchesText (tok : List Char) (v : String) : Bool :=
  containsSeq (tok.map Char.toLower) (v.toList.map Char.toLower)

/-- Modelled from the spec: a token matches a record iff it is a
case-insensitive substring of at least one configured searchable field
(OR across fields); non-text values never match. -/
def tokenMatches (cfg : Config) (r : Record) (tok : List Char) : Bool :=
  cfg.searchableFields.any fun f =>
    match getField r f with
    | some (.str v) => matchesText tok v
    | _ => false

/-- Modelled from the spec (§4.2): "A record is retained iff every token
matches at least one configured searchable field (AND across tokens, OR
across fields)", preserving original order. -/
def filterEngine (cfg : Config) (recs : List Record) (search : String) :
    List Record :=
  recs.filter fun r => (tokensOf search).all (tokenMatches cfg r)

/-! ### Sort Engine: comparators -/

/-- Apply a sort direction to a comparison result (`true` = ascending). -/
def dirOrd (asc : Bool) (o : Ordering) : Ordering :=
  if asc then o else o.swap

/-- Integer comparison, modelled from the spec: "Numeric fields compare
numerically". -/
def cmpInt (a b : Int) : Ordering :=
  if a < b then .lt else if b < a then .gt else .eq

/-- Character comparison by code point. -/
def cmpChar (a b : Char) : Ordering :=
  cmpInt a.toNat b.toNat

/-- Lexicographic comparison of character lists. -/
def cmpCharList : List Char → List Char → Ordering
  | [], [] => .eq
  | [], _ :: _ => .lt
  | _ :: _, [] => .gt
  | a :: as, b :: bs =>
    match cmpChar a b with
    | .eq => cmpCharList as bs
    | o => o

/-- Modelled from the spec: "Text fields compare case-insensitively
lexically". -/
def cmpStrCI (a b : String) : Ordering :=
  cmpCharList (a.toList.map Char.toLower) (b.toList.map Char.toLower)

/-- Modelled from the spec (§4.3, the `/data` backend is absent): compare two
field values under a direction.  Numbers compare numerically, text
case-insensitively, both subject to the direction; "missing/unparseable
numeric values sort after all present values regardless of direction"; a
number sorts before a text value (a fixed tie-break for heterogenous
values). -/
def cmpVal (asc : Bool) : Option FieldValue → Option FieldValue → Ordering
  | some (.num a), some (.num b) => dirOrd asc (cmpInt a b)
  | some (.str a), some (.str b) => dirOrd asc (cmpStrCI a b)
  | some (.num _), some (.str _) => .lt
  | some (.str _), some (.num _) => .gt
  | some (.num _), _ => .lt
  | some (.str _), _ => .lt
  | _, some (.num _) => .gt
  | _, some (.str _) => .gt
  | _, _ => .eq

/-- Compare two records under one sort key (field name, direction). -/
def cmpKey (k : String × Bool) (r s : Record) : Ordering :=
  cmpVal k.2 (getField r k.1) (getField s k.1)

/-- Modelled from the spec: "Comparison is performed key by key in the order
given; the first key that distinguishes two records determines their
relative order". -/
def cmpKeys : List (String × Bool) → Record → Record → Ordering
  | [], _, _ => .eq
  | k :: ks, r, s =>
    match cmpKey k r s with
    | .eq => cmpKeys ks r s
    | o => o

/-- Reverse the direction of every sort key. -/
def flipKeys (keys : List (String × Bool)) : List (String × Bool) :=
  keys.map fun k => (k.1, !k.2)

/-- The Boolean "not after" relation induced by a key list. -/
def leKeys (keys : List (String × Bool)) (r s : Record) : Bool :=
  match cmpKeys keys r s with
  | .gt => false
  | _ => true

/-! ### Comparator laws -/

/-- A comparator is lawful when it is antisymmetric under `Ordering.swap`
and its induced "not greater" relation is transitive. -/
def LawfulCmp (cmp : α → α → Ordering) : Prop :=
  (∀ a b, cmp a b = (cmp b a).swap) ∧
  (∀ a b c, cmp a b ≠ .gt → cmp b c ≠ .gt → cmp a c ≠ .gt)

theorem LawfulCmp.eq_symm {cmp : α → α → Ordering} (h : LawfulCmp cmp)
    {a b : α} (hab : cmp a b = .eq) : cmp b a = .eq := by
  have := h.1 a b
  rw [hab] at this
  cases hba : cmp b a <;> rw [hba] at this <;> simp [Ordering.swap] at this

theorem LawfulCmp.gt_of_lt {cmp : α → α → Ordering} (h : LawfulCmp cmp)
    {a b : α} (hab : cmp a b = .lt) : cmp b a = .gt := by
  have := h.1 a b
  rw [hab] at this
  cases hba : cmp b a <;> rw [hba] at this <;> simp [Ordering.swap] at this

theorem LawfulCmp.lt_of_gt {cmp : α → α → Ordering} (h : LawfulCmp cmp)
    {a b : α} (hab : cmp a b = .gt) : cmp b a = .lt := by
  have := h.1 a b
  rw [hab] at this
  cases hba : cmp b a <;> rw [hba] at this <;> simp [Ordering.swap] at this

theorem LawfulCmp.eq_trans {cmp : α → α → Ordering} (h : LawfulCmp cmp)
    {a b c : α} (hab : cmp a b = .eq) (hbc : cmp b c = .eq) :
    cmp a c = .eq := by
  have h1 : cmp a c ≠ .gt := by
    refine h.2 a b c ?_ ?_ <;> simp [hab, hbc]
  have h2 : cmp c a ≠ .gt := by
    refine h.2 c b a ?_ ?_ <;>
      simp [h.eq_symm hab, h.eq_symm hbc]
  cases hac : cmp a c with
  | eq => rfl
  | gt => exact absurd hac h1
  | lt => exact absurd (h.gt_of_lt hac) h2

theorem LawfulCmp.lt_trans {cmp : α → α → Ordering} (h : LawfulCmp cmp)
    {a b c : α} (hab : cmp a b = .lt) (hbc : cmp b c = .lt) :
    cmp a c = .lt := by
  have h1 : cmp a c ≠ .gt := by
    refine h.2 a b c ?_ ?_ <;> simp [hab, hbc]
  cases hac : cmp a c with
  | lt => rfl
  | gt => exact absurd hac h1
  | eq =>
    have hca : cmp c a = .eq := h.eq_symm hac
    have : cmp c b ≠ .gt := by
      refine h.2 c a b ?_ ?_ <;> simp [hca, hab]
    exact absurd (h.gt_of_lt hbc) this

theorem LawfulCmp.lt_of_lt_of_eq {cmp : α → α → Ordering} (h : LawfulCmp cmp)
    {a b c : α} (hab : cmp a b = .lt) (hbc : cmp b c = .eq) :
    cmp a c = .lt := by
  have h1 : cmp a c ≠ .gt := by
    refine h.2 a b c ?_ ?_ <;> simp [hab, hbc]
  cases hac : cmp a c with
  | lt => rfl
  | gt => exact absurd hac h1
  | eq =>
    have hcb : cmp c b = .eq := h.eq_symm hbc
    have : cmp a b = .eq := h.eq_trans hac hcb
    rw [hab] at this; cases this

theorem LawfulCmp.lt_of_eq_of_lt {cmp : α → α → Ordering} (h : LawfulCmp cmp)
    {a b c : α} (hab : cmp a b = .eq) (hbc : cmp b c = .lt) :
    cmp a c = .lt := by
  have h1 : cmp a c ≠ .gt := by
    refine h.2 a b c ?_ ?_ <;> simp [hab, hbc]
  cases hac : cmp a c with
  | lt => rfl
  | gt => exact absurd hac h1
  | eq =>
    have : cmp b c = .eq := h.eq_trans (h.eq_symm hab) hac
    rw [hbc] at this; cases this

theorem LawfulCmp.le_total {cmp : α → α → Ordering} (h : LawfulCmp cmp)
    (a b : α) : cmp a b ≠ .gt ∨ cmp b a ≠ .gt := by
  cases hab : cmp a b with
  | lt => left; intro hc; cases hc
  | eq => left; intro hc; cases hc
  | gt => right; rw [h.lt_of_gt hab]; intro hc; cases hc

theorem lawful_comap {β : Type} {cmp : β → β → Ordering} (f : α → β)
    (h : LawfulCmp cmp) : LawfulCmp (fun a b => cmp (f a) (f b)) :=
  ⟨fun a b => h.1 (f a) (f b), fun a b c => h.2 (f a) (f b) (f c)⟩

theorem lawful_swapCmp {cmp : α → α → Ordering} (h : LawfulCmp cmp) :
    LawfulCmp (fun a b => (cmp a b).swap) := by
  constructor
  · intro a b
    show (cmp a b).swap = ((cmp b a).swap).swap
    rw [Ordering.swap_swap, h.1 a b, Ordering.swap_swap]
  · intro a b c h1 h2
    replace h1 : (cmp a b).swap ≠ .gt := h1
    replace h2 : (cmp b c).swap ≠ .gt := h2
    show (cmp a c).swap ≠ .gt
    have hba : cmp b a ≠ .gt := by
      cases hab : cmp a b with
      | lt => exact absurd (by rw [hab]; rfl) h1
      | eq => rw [h.eq_symm hab]; exact fun hc => Ordering.noConfusion hc
      | gt => rw [h.lt_of_gt hab]; exact fun hc => Ordering.noConfusion hc
    have hcb : cmp c b ≠ .gt := by
      cases hbc : cmp b c with
      | lt => exact absurd (by rw [hbc]; rfl) h2
      | eq => rw [h.eq_symm hbc]; exact fun hc => Ordering.noConfusion hc
      | gt => rw [h.lt_of_gt hbc]; exact fun hc => Ordering.noConfusion hc
    have hca : cmp c a ≠ .gt := h.2 c b a hcb hba
    cases hac : cmp a c with
    | lt => exact absurd (h.gt_of_lt hac) hca
    | eq => decide
    | gt => decide

theorem lawful_dirOrd {cmp : α → α → Ordering} (asc : Bool)
    (h : LawfulCmp cmp) : LawfulCmp (fun a b => dirOrd asc (cmp a b)) := by
  cases asc with
  | false => simpa [dirOrd] using lawful_swapCmp h
  | true => simpa [dirOrd] using h

theorem lawful_cmpInt : LawfulCmp cmpInt := by
  constructor
  · intro a b
    simp only [cmpInt]
    split_ifs <;> first | rfl | omega
  · intro a b c h1 h2
    simp only [cmpInt] at h1 h2 ⊢
    split_ifs at h1 h2 ⊢ <;> simp_all <;> omega

theorem lawful_cmpChar : LawfulCmp cmpChar :=
  lawful_comap (fun c : Char => (c.toNat : Int)) lawful_cmpInt

theorem cmpCharList_swap :
    ∀ a b, cmpCharList a b = (cmpCharList b a).swap := by
  intro a
  induction a with
  | nil => intro b; cases b <;> rfl
  | cons x xs ih =>
    intro b
    cases b with
    | nil => rfl
    | cons y ys =>
      simp only [cmpCharList]
      rw [lawful_cmpChar.1 x y]
      cases hyx : cmpChar y x <;> simp [Ordering.swap, ih ys]

theorem cmpCharList_le_trans :
    ∀ a b c, cmpCharList a b ≠ .gt → cmpCharList b c ≠ .gt →
      cmpCharList a c ≠ .gt := by
  intro a
  induction a with
  | nil =>
    intro b c _ _
    cases c <;> simp [cmpCharList]
  | cons x xs ih =>
    intro b c h1 h2
    cases b with
    | nil => exact absurd rfl h1
    | cons y ys =>
      cases c with
      | nil => exact absurd rfl h2
      | cons z zs =>
        simp only [cmpCharList] at h1 h2 ⊢
        cases hxy : cmpChar x y <;> cases hyz : cmpChar y z <;>
          simp [hxy, hyz] at h1 h2 ⊢
        all_goals first
          | simp [lawful_cmpChar.lt_trans hxy hyz]
          | simp [lawful_cmpChar.lt_of_lt_of_eq hxy hyz]
          | simp [lawful_cmpChar.lt_of_eq_of_lt hxy hyz]
          | (simp only [lawful_cmpChar.eq_trans hxy hyz]
             exact ih ys zs h1 h2)

theorem lawful_cmpCharList : LawfulCmp cmpCharList :=
  ⟨cmpCharList_swap, cmpCharList_le_trans⟩

theorem lawful_cmpStrCI : LawfulCmp cmpStrCI :=
  lawful_comap (fun s : String => s.toList.map Char.toLower) lawful_cmpCharList

theorem lawful_cmpVal (asc : Bool) : LawfulCmp (cmpVal asc) := by
  have hInt := lawful_dirOrd asc lawful_cmpInt
  have hStr := lawful_dirOrd asc lawful_cmpStrCI
  constructor
  · intro v w
    rcases v with _ | s₁ | n₁ | _ <;> rcases w with _ | s₂ | n₂ | _ <;>
      first
        | rfl
        | exact hStr.1 s₁ s₂
        | exact hInt.1 n₁ n₂
  · intro v w u h1 h2
    rcases v with _ | s₁ | n₁ | _ <;> rcases w with _ | s₂ | n₂ | _ <;>
      rcases u with _ | s₃ | n₃ | _ <;>
      first
        | exact absurd rfl h1
        | exact absurd rfl h2
        | exact fun hc => Ordering.noConfusion hc
        | exact hStr.2 s₁ s₂ s₃ h1 h2
        | exact hInt.2 n₁ n₂ n₃ h1 h2

theorem lawful_cmpKey (k : String × Bool) : LawfulCmp (cmpKey k) :=
  lawful_comap (fun r => getField r k.1) (lawful_cmpVal k.2)

theorem lawful_lex {c₁ c₂ : α → α → Ordering} (h1 : LawfulCmp c₁)
    (h2 : LawfulCmp c₂) :
    LawfulCmp (fun a b => match c₁ a b with | .eq => c₂ a b | o => o) := by
  constructor
  · intro a b
    cases hab : c₁ a b with
    | lt => simp only [hab, h1.gt_of_lt hab]; rfl
    | eq => simp only [hab, h1.eq_symm hab]; exact h2.1 a b
    | gt => simp only [hab, h1.lt_of_gt hab]; rfl
  · intro a b c hab hbc
    cases h1ab : c₁ a b <;> cases h1bc : c₁ b c <;>
      simp [h1ab, h1bc] at hab hbc ⊢
    all_goals first
      | simp [h1.lt_trans h1ab h1bc]
      | simp [h1.lt_of_lt_of_eq h1ab h1bc]
      | simp [h1.lt_of_eq_of_lt h1ab h1bc]
      | (simp only [h1.eq_trans h1ab h1bc]
         exact h2.2 a b c hab hbc)

theorem lawful_cmpKeys (keys : List (String × Bool)) :
    LawfulCmp (cmpKeys keys) := by
  induction keys with
  | nil =>
    exact ⟨fun a b => rfl, fun a b c h1 h2 hc => Ordering.noConfusion hc⟩
  | cons k ks ih => exact lawful_lex (lawful_cmpKey k) ih

theorem leKeys_eq_true_iff (keys : List (String × Bool)) (r s : Record) :
    leKeys keys r s = true ↔ cmpKeys keys r s ≠ .gt := by
  cases h : cmpKeys keys r s <;> simp [leKeys, h]

/-! ### Sort Engine: stable insertion sort -/

/-- Insert `x` before the first element `y` of `l` with `le x y`. -/
def insertLe (le : α → α → Bool) (x : α) : List α → List α
  | [] => [x]
  | y :: ys => if le x y then x :: y :: ys else y :: insertLe le x ys

/-- Insertion sort: a stable sorting algorithm. -/
def isort (le : α → α → Bool) : List α → List α
  | [] => []
  | x :: xs => insertLe le x (isort le xs)

/-- Modelled from the spec (§4.3, the `/data` backend is absent): the Sort
Engine produces a stable multi-key ordering of the filtered records. -/
def sortEngine (keys : List (String × Bool)) (recs : List Record) :
    List Record :=
  isort (leKeys keys) recs

theorem mem_insertLe (le : α → α → Bool) (x a : α) :
    ∀ l, a ∈ insertLe le x l ↔ a = x ∨ a ∈ l := by
  intro l
  induction l with
  | nil => simp [insertLe]
  | cons y ys ih =>
    simp only [insertLe]
    split
    · simp [List.mem_cons]
    · simp only [List.mem_cons, ih]
      tauto

theorem mem_isort (le : α → α → Bool) (a : α) :
    ∀ l, a ∈ isort le l ↔ a ∈ l := by
  intro l
  induction l with
  | nil => simp [isort]
  | cons x xs ih => simp [isort, mem_insertLe, ih]

theorem insertLe_decomp (le : α → α → Bool) (x : α) :
    ∀ l : List α, ∃ l₁ l₂, l = l₁ ++ l₂ ∧ insertLe le x l = l₁ ++ x :: l₂ := by
  intro l
  induction l with
  | nil => exact ⟨[], [], rfl, rfl⟩
  | cons y ys ih =>
    cases hle : le x y with
    | true => exact ⟨[], y :: ys, rfl, by simp [insertLe, hle]⟩
    | false =>
      obtain ⟨l₁, l₂, h1, h2⟩ := ih
      exact ⟨y :: l₁, l₂, by simp [h1], by simp [insertLe, hle, h2]⟩

theorem sublist_insertLe (le : α → α → Bool) (x : α) {s l : List α}
    (h : s <+ l) : s <+ insertLe le x l := by
  obtain ⟨l₁, l₂, hdec, hins⟩ := insertLe_decomp le x l
  rw [hins]
  rw [hdec] at h
  exact h.trans (List.Sublist.append_left (List.sublist_cons_self x l₂) l₁)

theorem insertLe_before {le : α → α → Bool} {x y : α} (hxy : le x y = true) :
    ∀ {l : List α}, y ∈ l → [x, y] <+ insertLe le x l := by
  intro l
  induction l with
  | nil => intro hy; simp at hy
  | cons z t ih =>
    intro hy
    cases hle : le x z with
    | true =>
      simp only [insertLe, hle, if_true]
      exact List.Sublist.cons₂ x (List.singleton_sublist.mpr hy)
    | false =>
      simp only [insertLe, hle]
      rw [if_neg (by simp)]
      rcases List.mem_cons.mp hy with rfl | hyt
      · rw [hxy] at hle; cases hle
      · exact List.Sublist.cons z (ih hyt)

theorem isort_stable {le : α → α → Bool} {x y : α} (hxy : le x y = true) :
    ∀ {l : List α}, [x, y] <+ l → [x, y] <+ isort le l := by
  intro l
  induction l with
  | nil => intro hsub; simp at hsub
  | cons z t ih =>
    intro hsub
    cases hsub with
    | cons _ h => exact sublist_insertLe _ _ (ih h)
    | cons₂ _ h =>
      exact insertLe_before hxy ((mem_isort le y t).mpr
        (List.singleton_sublist.mp h))

theorem pairwise_insertLe {le : α → α → Bool}
    (htotal : ∀ a b, le a b = true ∨ le b a = true)
    (htrans : ∀ a b c, le a b = true → le b c = true → le a c = true)
    (x : α) :
    ∀ {l : List α}, l.Pairwise (fun a b => le a b = true) →
      (insertLe le x l).Pairwise (fun a b => le a b = true) := by
  intro l
  induction l with
  | nil => intro _; simp [insertLe]
  | cons z t ih =>
    intro hp
    rw [List.pairwise_cons] at hp
    obtain ⟨hz, ht⟩ := hp
    cases hle : le x z with
    | true =>
      simp only [insertLe, hle, if_true]
      rw [List.pairwise_cons]
      refine ⟨?_, ?_⟩
      · intro b hb
        rcases List.mem_cons.mp hb with rfl | hbt
        · exact hle
        · exact htrans x z b hle (hz b hbt)
      · rw [List.pairwise_cons]; exact ⟨hz, ht⟩
    | false =>
      simp only [insertLe, hle]
      rw [if_neg (by simp)]
      rw [List.pairwise_cons]
      refine ⟨?_, ih ht⟩
      intro b hb
      rcases (mem_insertLe le x b t).mp hb with rfl | hbt
      · rcases htotal b z with h | h
        · rw [h] at hle; cases hle
        · exact h
      · exact hz b hbt

theorem pairwise_isort {le : α → α → Bool}
    (htotal : ∀ a b, le a b = true ∨ le b a = true)
    (htrans : ∀ a b c, le a b = true → le b c = true → le a c = true) :
    ∀ l : List α, (isort le l).Pairwise (fun a b => le a b = true) := by
  intro l
  induction l with
  | nil => simp [isort]
  | cons x xs ih => exact pairwise_insertLe htotal htrans x ih

/-! ### Sort Engine properties at the record level -/

theorem sortEngine_mem (keys : List (String × Bool)) (a : Record)
    (l : List Record) : a ∈ sortEngine keys l ↔ a ∈ l :=
  mem_isort (leKeys keys) a l

theorem sortEngine_stable {keys : List (String × Bool)} {x y : Record}
    {l : List Record} (hsub : [x, y] <+ l)
    (heq : cmpKeys keys x y = .eq) : [x, y] <+ sortEngine keys l :=
  isort_stable ((leKeys_eq_true_iff keys x y).mpr (by rw [heq]; decide)) hsub

theorem sortEngine_pairwise (keys : List (String × Bool)) (l : List Record) :
    (sortEngine keys l).Pairwise (fun a b => cmpKeys keys a b ≠ .gt) := by
  have htotal : ∀ a b : Record, leKeys keys a b = true ∨ leKeys keys b a = true := by
    intro a b
    rcases (lawful_cmpKeys keys).le_total a b with h | h
    · exact Or.inl ((leKeys_eq_true_iff keys a b).mpr h)
    · exact Or.inr ((leKeys_eq_true_iff keys b a).mpr h)
  have htrans : ∀ a b c : Record, leKeys keys a b = true →
      leKeys keys b c = true → leKeys keys a c = true := by
    intro a b c h1 h2
    exact (leKeys_eq_true_iff keys a c).mpr
      ((lawful_cmpKeys keys).2 a b c
        ((leKeys_eq_true_iff keys a b).mp h1)
        ((leKeys_eq_true_iff keys b c).mp h2))
  exact (pairwise_isort htotal htrans l).imp
    (fun h => (leKeys_eq_true_iff keys _ _).mp h)

theorem sortEngine_no_inversion {keys : List (String × Bool)}
    {x y : Record} (l : List Record) (hlt : cmpKeys keys x y = .lt) :
    ¬ ([y, x] <+ sortEngine keys l) := by
  intro hsub
  have hp := (sortEngine_pairwise keys l).sublist hsub
  rw [List.pairwise_cons] at hp
  have := hp.1 x (by simp)
  exact this ((lawful_cmpKeys keys).gt_of_lt hlt)

/-! ### Direction reversal -/

theorem dirOrd_eq_iff (b : Bool) (o : Ordering) :
    dirOrd b o = .eq ↔ o = .eq := by
  cases b <;> cases o <;> simp [dirOrd, Ordering.swap]

theorem cmpVal_flip_eq_iff (asc : Bool) (v w : Option FieldValue) :
    cmpVal (!asc) v w = .eq ↔ cmpVal asc v w = .eq := by
  rcases v with _ | s₁ | n₁ | _ <;> rcases w with _ | s₂ | n₂ | _ <;>
    simp [cmpVal, dirOrd_eq_iff]

theorem cmpKeys_flip_eq_iff :
    ∀ (keys : List (String × Bool)) (r s : Record),
      cmpKeys (flipKeys keys) r s = .eq ↔ cmpKeys keys r s = .eq := by
  intro keys
  induction keys with
  | nil => intro r s; exact Iff.rfl
  | cons k ks ih =>
    intro r s
    have hflip : cmpKey (k.1, !k.2) r s = .eq ↔ cmpKey k r s = .eq :=
      cmpVal_flip_eq_iff k.2 (getField r k.1) (getField s k.1)
    show (match cmpKey (k.1, !k.2) r s with
          | .eq => cmpKeys (flipKeys ks) r s
          | o => o) = .eq ↔
         (match cmpKey k r s with
          | .eq => cmpKeys ks r s
          | o => o) = .eq
    cases h1 : cmpKey (k.1, !k.2) r s <;> cases h2 : cmpKey k r s <;>
      simp [h1, h2] at hflip ⊢
    exact ih r s

/-- On two present numeric values, reversing the direction swaps the
comparison result. -/
theorem cmpVal_flip_num (asc : Bool) (a b : Int) :
    cmpVal (!asc) (some (.num a)) (some (.num b)) =
      (cmpVal asc (some (.num a)) (some (.num b))).swap := by
  cases asc <;> simp [cmpVal, dirOrd, Ordering.swap_swap]

/-- On two present text values, reversing the direction swaps the
comparison result. -/
theorem cmpVal_flip_str (asc : Bool) (a b : String) :
    cmpVal (!asc) (some (.str a)) (some (.str b)) =
      (cmpVal asc (some (.str a)) (some (.str b))).swap := by
  cases asc <;> simp [cmpVal, dirOrd, Ordering.swap_swap]

/-! ### Request Parser -/

/-- A raw wire request.  `start` and `length` carry `none` when the wire
value was absent or non-numeric (spec §4.1 treats non-numeric input as a
defined degradation); `order` entries carry a wire column index and a
direction (`true` = ascending). -/
structure RawRequest where
  token : String
  start : Option Int
  length : Option Int
  search : String
  order : List (Int × Bool)
  deriving DecidableEq, Repr

/-- The validated, typed plan produced by the Request Parser. -/
structure Plan where
  token : String
  start : Nat
  length : Option Nat
  search : String
  sortKeys : List (String × Bool)
  deriving DecidableEq, Repr

/-- Modelled from the spec (§4.1, the `/data` backend is absent): "Start
offset: parsed as a non-negative integer; negative or non-numeric input
clamps to 0". -/
def parseStart : Option Int → Nat
  | none => 0
  | some i => i.toNat

/-- Modelled from the spec (§4.1, the `/data` backend is absent): "the
sentinel value (conventionally -1) means return every filtered record from
start onward; any other non-positive or non-numeric input falls back to a
configured default page length".  `none` is the "all" sentinel. -/
def parseLength (cfg : Config) : Option Int → Option Nat
  | none => some cfg.defaultLength
  | some i =>
    if i = -1 then none
    else if i ≤ 0 then some cfg.defaultLength
    else some i.toNat

/-- Resolve a wire column index through the Column Mapping. -/
def lookupColumn (cfg : Config) (c : Int) : Option String :=
  if c < 0 then none else cfg.columnMapping.get? c.toNat

/-- Keep the sort keys whose column index lies inside the Column Mapping,
resolving each to its field name. -/
def mapOrder (cfg : Config) (raw : List (Int × Bool)) :
    List (String × Bool) :=
  raw.filterMap fun e => (lookupColumn cfg e.1).map fun f => (f, e.2)

/-- Modelled from the spec (§4.1, the `/data` backend is absent): "indices
outside the configured Column Mapping are dropped silently ... an entirely
invalid sort request degrades to the configured default order". -/
def parseOrder (cfg : Config) (raw : List (Int × Bool)) :
    List (String × Bool) :=
  if (mapOrder cfg raw).isEmpty then mapOrder cfg cfg.defaultOrderRaw
  else mapOrder cfg raw

/-- Modelled from the spec (§4.1, the `/data` backend is absent): the
Request Parser.  The search string is passed through to the Filter Engine;
the spec's leading/trailing-whitespace trim is the identity there because
tokenisation already splits on whitespace. -/
def parseRequest (cfg : Config) (req : RawRequest) : Plan :=
  { token := req.token
    start := parseStart req.start
    length := parseLength cfg req.length
    search := req.search
    sortKeys := parseOrder cfg req.order }

/-! ### Pager -/

/-- Modelled from the spec (§4.4, the `/data` backend is absent): "return
the sub-sequence [start, start+length) clipped to the sequence bounds; if
length is the all sentinel, return [start, end)". -/
def pager (start : Nat) (length : Option Nat) (l : List α) : List α :=
  match length with
  | none => l.drop start
  | some n => (l.drop start).take n

/-! ### Response Formatter and the full pipeline -/

/-- Project a record through the Column Mapping: only mapped fields, in
mapped order. -/
def projectRecord (mapping : List String) (r : Record) :
    List (Option FieldValue) :=
  mapping.map fun f => getField r f

/-- A query response: echoed token, unfiltered count, post-filter count and
the projected page. -/
structure QueryResponse where
  token : String
  total_count : Nat
  filtered_count : Nat
  page : List (List (Option FieldValue))
  deriving DecidableEq, Repr

/-- Modelled from the spec (§2, §4.5, the `/data` backend is absent): the
full request pipeline Parser → Filter → Sort → Pager → Formatter over the
read-only Record Store. -/
def query (cfg : Config) (store : List Record) (req : RawRequest) :
    QueryResponse :=
  let plan := parseRequest cfg req
  let filtered := filterEngine cfg store plan.search
  let sorted := sortEngine plan.sortKeys filtered
  let page := pager plan.start plan.length sorted
  { token := plan.token
    total_count := store.length
    filtered_count := filtered.length
    page := page.map (projectRecord cfg.columnMapping) }

/-- A service-level result: a normal response, or the distinct failure
emitted when the Record Store is unavailable (spec §7); both echo the
request token. -/
inductive ServiceResult where
  | ok (resp : QueryResponse)
  | failure (token : String)
  deriving DecidableEq, Repr

/-- The token carried by a service result. -/
def ServiceResult.token : ServiceResult → String
  | .ok r => r.token
  | .failure t => t

/-- Modelled from the spec (§7, the `/data` backend is absent): serve a
request; an unavailable store surfaces as a failure response, which still
echoes the token. -/
def serve (cfg : Config) (store? : Option (List Record))
    (req : RawRequest) : ServiceResult :=
  match store? with
  | none => .failure req.token
  | some store => .ok (query cfg store req)

/-! ### Concrete example data (after the spec's §8 example records) -/

/-- Example record: Allende, CV3, 1969. -/
def recAllende : Record :=
  [("name", .str "Allende"), ("recclass", .str "CV3"), ("year", .num 1969)]

/-- Example record: Chelyabinsk, LL5, 2013. -/
def recChelyabinsk : Record :=
  [("name", .str "Chelyabinsk"), ("recclass", .str "LL5"),
   ("year", .num 2013)]

/-- Example record: Murchison, CM2, 1969. -/
def recMurchison : Record :=
  [("name", .str "Murchison"), ("recclass", .str "CM2"), ("year", .num 1969)]

/-- A three-record example store. -/
def exampleStore : List Record := [recAllende, recChelyabinsk, recMurchison]

/-- An example well-formed request: sort by wire column 2 (year) ascending. -/
def exampleRequest : RawRequest :=
  { token := "t1", start := some 0, length := some 10, search := "",
    order := [(2, true)] }

/-! ### Claims -/

/-- C1: the Filter Engine splits the search string on whitespace into
tokens (the empty string yields zero tokens and every record passes), and a
record is in the filtered output iff every token case-insensitively
substring-matches at least one configured searchable text field (AND across
tokens, OR across fields); the numeric fields (mass, year, coordinates) are
not searchable in either configuration, and the original record order is
preserved (the output is a sublist of the input). -/
theorem c1_filter_engine (cfg : Config) (recs : List Record)
    (search : String) (r : Record) :
    (r ∈ filterEngine cfg recs search ↔
      r ∈ recs ∧ ∀ tok ∈ tokensOf search, tokenMatches cfg r tok = true)
  ∧ filterEngine cfg recs search <+ recs
  ∧ tokensOf "" = []
  ∧ filterEngine cfg recs "" = recs
  ∧ ("mass" ∉ compactConfig.searchableFields ∧
     "year" ∉ compactConfig.searchableFields ∧
     "reclat" ∉ compactConfig.searchableFields ∧
     "reclong" ∉ compactConfig.searchableFields ∧
     "mass_formatted" ∉ extendedConfig.searchableFields ∧
     "year_formatted" ∉ extendedConfig.searchableFields ∧
     "reclat" ∉ extendedConfig.searchableFields ∧
     "reclong" ∉ extendedConfig.searchableFields) := by
  refine ⟨?_, List.filter_sublist recs, rfl, ?_, by decide⟩
  · simp [filterEngine, List.mem_filter, List.all_eq_true]
  · have h : tokensOf "" = [] := rfl
    simp [filterEngine, h]

/-- C3: the Pager returns the sub-sequence [start, start+length) clipped to
the sequence bounds, the whole suffix [start, end) for the "all" sentinel,
an empty page whenever start is at or past the end, and on a store of size
3 with the "all" sentinel and start 2 a page of exactly 1 record. -/
theorem c3_pager {α : Type} (l : List α) (start n : Nat) :
    (pager start (some n) l).length = min n (l.length - start)
  ∧ (∀ i : Nat, (pager start (some n) l)[i]? =
      if i < n then l[start + i]? else none)
  ∧ (pager start none l).length = l.length - start
  ∧ (∀ i : Nat, (pager start none l)[i]? = l[start + i]?)
  ∧ (l.length ≤ start →
      pager start (some n) l = [] ∧ pager start none l = [])
  ∧ (l.length = 3 → (pager 2 none l).length = 1) := by
  refine ⟨?_, ?_, ?_, ?_, ?_, ?_⟩
  · simp [pager]
  · intro i
    simp [pager, List.getElem?_take, List.getElem?_drop]
  · simp [pager]
  · intro i
    simp [pager, List.getElem?_drop]
  · intro h
    constructor <;> simp [pager, List.drop_eq_nil_of_le h]
  · intro h
    simp [pager, h]

/-- C4: for every request, 0 ≤ filtered_count ≤ total_count, where
total_count is the unfiltered store size and filtered_count the Filter
Engine's output size before pagination. -/
theorem c4_count_invariant (cfg : Config) (store : List Record)
    (req : RawRequest) :
    0 ≤ (query cfg store req).filtered_count
  ∧ (query cfg store req).filtered_count ≤ (query cfg store req).total_count
  ∧ (query cfg store req).total_count = store.length
  ∧ (query cfg store req).filtered_count =
      (filterEngine cfg store (parseRequest cfg req).search).length := by
  refine ⟨Nat.zero_le _, ?_, rfl, rfl⟩
  exact List.length_filter_le _ store

/-- C5: the response token equals the request token on every input,
including the failure response emitted when the store is unavailable. -/
theorem c5_token_echo (cfg : Config) (store? : Option (List Record))
    (req : RawRequest) :
    (serve cfg store? req).token = req.token
  ∧ ∀ store, (query cfg store req).token = req.token := by
  constructor
  · cases store? <;> rfl
  · intro store; rfl

/-- C9: two identical requests against the same unchanged store produce
identical responses, page order included: the pipeline is a pure function
of the configuration, the store and the request. -/
theorem c9_idempotence (cfg : Config) (store? : Option (List Record))
    (req₁ req₂ : RawRequest) (h : req₁ = req₂) :
    serve cfg store? req₁ = serve cfg store? req₂
  ∧ ∀ store, query cfg store req₁ = query cfg store req₂ := by
  subst h
  exact ⟨rfl, fun _ => rfl⟩

/-- Witness for C9 at a concrete repeated request. -/
theorem c9_idempotence_witness :
    serve compactConfig (some exampleStore) exampleRequest =
      serve compactConfig (some exampleStore) exampleRequest
  ∧ ∀ store, query compactConfig store exampleRequest =
      query compactConfig store exampleRequest :=
  c9_idempotence compactConfig (some exampleStore) exampleRequest
    exampleRequest rfl

/-- Witness for C3 at a concrete 3-element sequence. -/
theorem c3_pager_witness :
    (pager 2 none [(0 : Nat), 1, 2]).length = 1
  ∧ pager 3 (some 5) [(0 : Nat), 1, 2] = []
  ∧ pager 3 none [(0 : Nat), 1, 2] = [] :=
  ⟨(c3_pager [0, 1, 2] 2 5).2.2.2.2.2 rfl,
   ((c3_pager [0, 1, 2] 3 5).2.2.2.2.1 (by decide)).1,
   ((c3_pager [0, 1, 2] 3 5).2.2.2.2.1 (by decide)).2⟩

/-- C2: the Sort Engine compares key by key in the requested order (the
first distinguishing key decides, later keys apply only on ties), its
output is ordered by the key comparator with no inversion, records equal
under all requested keys keep their original relative order in both the
requested and the direction-reversed sort (stability), and reversing a
direction swaps the comparison of any two present key values of the same
kind. -/
theorem c2_sort_stability (keys : List (String × Bool)) (l : List Record)
    (x y : Record) (hsub : [x, y] <+ l)
    (heq : cmpKeys keys x y = .eq) :
    [x, y] <+ sortEngine keys l
  ∧ [x, y] <+ sortEngine (flipKeys keys) l
  ∧ (sortEngine keys l).Pairwise (fun a b => cmpKeys keys a b ≠ .gt)
  ∧ (sortEngine (flipKeys keys) l).Pairwise
      (fun a b => cmpKeys (flipKeys keys) a b ≠ .gt)
  ∧ (∀ a b : Record, cmpKeys keys a b = .lt →
      ¬ ([b, a] <+ sortEngine keys l))
  ∧ (∀ (k : String × Bool) (ks : List (String × Bool)) (r s : Record),
      cmpKey k r s ≠ .eq → cmpKeys (k :: ks) r s = cmpKey k r s)
  ∧ (∀ (k : String × Bool) (ks : List (String × Bool)) (r s : Record),
      cmpKey k r s = .eq → cmpKeys (k :: ks) r s = cmpKeys ks r s)
  ∧ (∀ (asc : Bool) (a b : Int),
      cmpVal (!asc) (some (.num a)) (some (.num b)) =
        (cmpVal asc (some (.num a)) (some (.num b))).swap)
  ∧ (∀ (asc : Bool) (a b : String),
      cmpVal (!asc) (some (.str a)) (some (.str b)) =
        (cmpVal asc (some (.str a)) (some (.str b))).swap) := by
  refine ⟨sortEngine_stable hsub heq,
          sortEngine_stable hsub ((cmpKeys_flip_eq_iff keys x y).mpr heq),
          sortEngine_pairwise keys l,
          sortEngine_pairwise (flipKeys keys) l,
          fun a b h => sortEngine_no_inversion l h,
          ?_, ?_, cmpVal_flip_num, cmpVal_flip_str⟩
  · intro k ks r s hne
    cases h : cmpKey k r s with
    | eq => exact absurd h hne
    | lt => simp [cmpKeys, h]
    | gt => simp [cmpKeys, h]
  · intro k ks r s h
    simp [cmpKeys, h]

/-- Witness for C2: the two 1969 records tie on the year key and keep their
store order in the ascending and in the descending sort. -/
theorem c2_sort_stability_witness :
    [recAllende, recMurchison] <+ sortEngine [("year", true)] exampleStore
  ∧ [recAllende, recMurchison] <+
      sortEngine (flipKeys [("year", true)]) exampleStore :=
  ⟨(c2_sort_stability [("year", true)] exampleStore recAllende recMurchison
      (by decide) (by decide)).1,
   (c2_sort_stability [("year", true)] exampleStore recAllende recMurchison
      (by decide) (by decide)).2.1⟩

/-- C6: for a fixed filtered and sorted sequence and page length L > 0,
the pages at offsets 0, L, 2L, … concatenate back to the full sequence,
with no gaps and no duplicates. -/
theorem c6_pagination_tiling {α : Type} :
    ∀ (m : Nat) (seq : List α) (L : Nat), 0 < L → seq.length ≤ m * L →
      ((List.range m).map fun k => pager (k * L) (some L) seq).flatten =
        seq := by
  intro m
  induction m with
  | zero =>
    intro seq L _ hlen
    have hnil : seq = [] :=
      List.eq_nil_of_length_eq_zero (Nat.le_zero.mp (by simpa using hlen))
    simp [hnil]
  | succ m ih =>
    intro seq L hL hlen
    rw [List.range_succ_eq_map, List.map_cons, List.map_map]
    have hmap : (List.range m).map
          ((fun k => pager (k * L) (some L) seq) ∘ (· + 1)) =
        (List.range m).map fun k => pager (k * L) (some L) (seq.drop L) := by
      apply List.map_congr_left
      intro k _
      show pager ((k + 1) * L) (some L) seq =
        pager (k * L) (some L) (seq.drop L)
      simp only [pager, List.drop_drop]
      rw [Nat.succ_mul, Nat.add_comm]
    rw [hmap, List.flatten_cons,
        ih (seq.drop L) L hL (by
          simp only [List.length_drop]
          rw [Nat.succ_mul] at hlen
          omega)]
    show pager (0 * L) (some L) seq ++ seq.drop L = seq
    simp [pager]

/-- Witness for C6: three records tiled into pages of length 2. -/
theorem c6_pagination_tiling_witness :
    ((List.range 2).map fun k => pager (k * 2) (some 2) [(10 : Nat), 20, 30]).flatten
      = [10, 20, 30] :=
  c6_pagination_tiling 2 [10, 20, 30] 2 (by decide) (by decide)

/-- C7: the Request Parser never fails on malformed paging input: a
missing/non-numeric or negative start clamps to 0, length -1 is the "all"
sentinel, any other non-positive or non-numeric length falls back to the
configured default (25 in both client configurations), and the service
answers every well-stored request with a normal response, never a
failure. -/
theorem c7_parser_degradation (cfg : Config) (i : Int) :
    parseStart none = 0
  ∧ (i < 0 → parseStart (some i) = 0)
  ∧ (0 ≤ i → (parseStart (some i) : Int) = i)
  ∧ parseLength cfg (some (-1)) = none
  ∧ parseLength cfg none = some cfg.defaultLength
  ∧ (i ≤ 0 → i ≠ -1 → parseLength cfg (some i) = some cfg.defaultLength)
  ∧ (0 < i → parseLength cfg (some i) = some i.toNat)
  ∧ compactConfig.defaultLength = 25
  ∧ extendedConfig.defaultLength = 25
  ∧ (∀ (store : List Record) (req : RawRequest),
      serve cfg (some store) req = .ok (query cfg store req)) := by
  refine ⟨rfl, ?_, ?_, rfl, rfl, ?_, ?_, rfl, rfl, fun store req => rfl⟩
  · intro h
    simp only [parseStart]
    omega
  · intro h
    simp only [parseStart]
    omega
  · intro h1 h2
    simp [parseLength, h1, h2]
  · intro h
    simp only [parseLength]
    rw [if_neg (by omega), if_neg (by omega)]

/-- Witness for C7 at concrete malformed inputs. -/
theorem c7_parser_degradation_witness :
    parseStart (some (-5)) = 0
  ∧ parseLength compactConfig (some (-5)) = some compactConfig.defaultLength
  ∧ parseLength compactConfig (some 7) = some 7 :=
  ⟨(c7_parser_degradation compactConfig (-5)).2.1 (by decide),
   (c7_parser_degradation compactConfig (-5)).2.2.2.2.2.1 (by decide)
     (by decide),
   (c7_parser_degradation compactConfig 7).2.2.2.2.2.2.1 (by decide)⟩

theorem mapOrder_filter_valid (cfg : Config) (raw : List (Int × Bool)) :
    mapOrder cfg (raw.filter fun e => (lookupColumn cfg e.1).isSome) =
      mapOrder cfg raw := by
  induction raw with
  | nil => rfl
  | cons e es ih =>
    cases h : lookupColumn cfg e.1 with
    | none =>
      simp [mapOrder, List.filter_cons, List.filterMap_cons, h]
      exact ih
    | some f =>
      simp [mapOrder, List.filter_cons, List.filterMap_cons, h]
      exact ih

theorem mapOrder_all_invalid (cfg : Config) (raw : List (Int × Bool))
    (h : ∀ e ∈ raw, lookupColumn cfg e.1 = none) :
    mapOrder cfg raw = [] := by
  induction raw with
  | nil => rfl
  | cons e es ih =>
    have he := h e (by simp)
    simp only [mapOrder, List.filterMap_cons, he, Option.map_none']
    exact ih fun a ha => h a (by simp [ha])

/-- C8: sort keys whose column index lies outside the Column Mapping are
dropped silently — a request sorts exactly as the same request with the
invalid keys removed — an entirely invalid sort request degrades to the
configured default order, and in either case the service still answers
with a normal response rather than an error. -/
theorem c8_invalid_sort_keys (cfg : Config) (raw : List (Int × Bool)) :
    parseOrder cfg raw =
      parseOrder cfg (raw.filter fun e => (lookupColumn cfg e.1).isSome)
  ∧ ((∀ e ∈ raw, lookupColumn cfg e.1 = none) →
      parseOrder cfg raw = mapOrder cfg cfg.defaultOrderRaw)
  ∧ (∀ (store : List Record) (req : RawRequest),
      serve cfg (some store) req = .ok (query cfg store req)) := by
  refine ⟨?_, ?_, fun store req => rfl⟩
  · simp only [parseOrder, mapOrder_filter_valid]
  · intro h
    simp [parseOrder, mapOrder_all_invalid cfg raw h]

/-- Witness for C8: a sort request whose only key references column 99
degrades to the configured default order. -/
theorem c8_invalid_sort_keys_witness :
    parseOrder compactConfig [(99, true)] =
      mapOrder compactConfig compactConfig.defaultOrderRaw :=
  (c8_invalid_sort_keys compactConfig [(99, true)]).2.1 (by decide)

theorem mem_pager {α : Type} {a : α} {start : Nat} {len : Option Nat}
    {l : List α} (h : a ∈ pager start len l) : a ∈ l := by
  cases len with
  | none => exact (List.drop_sublist start l).subset h
  | some n =>
    exact (List.drop_sublist start l).subset
      ((List.take_sublist n (l.drop start)).subset h)

/-- C10: the engine serves the two column mappings of the two table views
as configuration — the compact 6-field mapping and the extended 8-field
mapping, both taken verbatim from the client's `columns` declarations —
and every page row is some store record projected through the active
mapping: only mapped fields, in mapped order. -/
theorem c10_column_mapping (cfg : Config) (store : List Record)
    (req : RawRequest) (row : List (Option FieldValue))
    (hrow : row ∈ (query cfg store req).page) :
    (∃ r, r ∈ store ∧ row = cfg.columnMapping.map fun f => getField r f)
  ∧ row.length = cfg.columnMapping.length
  ∧ compactConfig.columnMapping =
      ["name", "mass", "year", "recclass", "reclat", "reclong"]
  ∧ extendedConfig.columnMapping =
      ["name", "recclass", "recclass_clean", "mass_formatted",
       "year_formatted", "reclat", "reclong", "fall"]
  ∧ compactConfig.columnMapping ≠ extendedConfig.columnMapping := by
  have hmem : ∃ r, r ∈ store ∧ row = projectRecord cfg.columnMapping r := by
    simp only [query] at hrow
    obtain ⟨rec, hrec, hproj⟩ := List.mem_map.mp hrow
    refine ⟨rec, ?_, hproj.symm⟩
    have h1 : rec ∈ filterEngine cfg store (parseRequest cfg req).search :=
      (sortEngine_mem _ _ _).mp (mem_pager hrec)
    exact (List.filter_sublist store).subset h1
  obtain ⟨r, hr, hrow_eq⟩ := hmem
  refine ⟨⟨r, hr, hrow_eq⟩, ?_, rfl, rfl, by decide⟩
  rw [hrow_eq]
  simp [projectRecord]

/-- Witness for C10: a concrete page row of the example store is the
projection of a store record through the compact mapping. -/
theorem c10_column_mapping_witness :
    ∃ r, r ∈ exampleStore ∧
      projectRecord compactColumns recAllende =
        compactConfig.columnMapping.map fun f => getField r f :=
  (c10_column_mapping compactConfig exampleStore exampleRequest
    (projectRecord compactColumns recAllende) (by decide)).1

end MeteoriteQuery
